import Mathlib

/-!
Shallow embedding of the xc character-removal utility
(src/src/xc.cc and src/src/char_type.h).

Buffers and strings are modelled as `List Char`; each `Char` stands for one
byte of the file or pattern.  The C++ classifier predicates receive an `int`
obtained from a (signed) `char`, so a byte b in [0,255] arrives as the integer
b if b < 128 and b - 256 otherwise; `byteToInt`/`charToInt` perform that
conversion.  The predicates themselves are translated literally from
char_type.h over `Int`.
-/

set_option autoImplicit false

/-- Signed-char conversion: byte value b in [0,255] as the C++ `int` the
classifier lambdas receive. -/
def byteToInt (n : Nat) : Int :=
  if n < 128 then (n : Int) else (n : Int) - 256

/-- The `int` value a buffer `Char` (one byte) is passed as. -/
def charToInt (c : Char) : Int :=
  byteToInt c.toNat

namespace char_type

/-- char_type.h isalnum: `(('a'..'z' or 'A'..'Z') or '0'..'9')`. -/
def isalnum (c : Int) : Bool :=
  decide (((97 ≤ c ∧ c ≤ 122) ∨ (65 ≤ c ∧ c ≤ 90)) ∨ (48 ≤ c ∧ c ≤ 57))

/-- char_type.h isalpha: `'a'..'z' or 'A'..'Z'`. -/
def isalpha (c : Int) : Bool :=
  decide ((97 ≤ c ∧ c ≤ 122) ∨ (65 ≤ c ∧ c ≤ 90))

/-- char_type.h iscntrl: `(c >= 0 and c < 32) or c == 127`. -/
def iscntrl (c : Int) : Bool :=
  decide ((0 ≤ c ∧ c < 32) ∨ c = 127)

/-- char_type.h isdigit: `'0'..'9'`. -/
def isdigit (c : Int) : Bool :=
  decide (48 ≤ c ∧ c ≤ 57)

/-- char_type.h isgraph: `'!'..'~'`. -/
def isgraph (c : Int) : Bool :=
  decide (33 ≤ c ∧ c ≤ 126)

/-- char_type.h islower: `'a'..'z'`. -/
def islower (c : Int) : Bool :=
  decide (97 ≤ c ∧ c ≤ 122)

/-- char_type.h isprint: `' '..'_'` (32..95, narrower than POSIX). -/
def isprint (c : Int) : Bool :=
  decide (32 ≤ c ∧ c ≤ 95)

/-- char_type.h ispunct: `isgraph(c) and not isalnum(c)`. -/
def ispunct (c : Int) : Bool :=
  isgraph c && !isalnum c

/-- char_type.h isspace: `('\t'..'\r') or c == ' '`. -/
def isspace (c : Int) : Bool :=
  decide ((9 ≤ c ∧ c ≤ 13) ∨ c = 32)

/-- char_type.h isupper: `'A'..'Z'`. -/
def isupper (c : Int) : Bool :=
  decide (65 ≤ c ∧ c ≤ 90)

/-- char_type.h isxdigit: `isdigit(c) or 'a'..'f' or 'A'..'F'`. -/
def isxdigit (c : Int) : Bool :=
  isdigit c || decide ((97 ≤ c ∧ c ≤ 102) ∨ (65 ≤ c ∧ c ≤ 70))

/-- char_type.h isascii: `(c & ~127) == 0`.  Over twos-complement integers
the value of `c & ~127` (clear the low seven bits) is `c - (c mod 128)` with
the nonnegative (Euclidean) remainder, which is how the bitwise expression is
rendered here. -/
def isascii (c : Int) : Bool :=
  decide (c - c.emod 128 = 0)

/-- char_type.h isblank: `c == ' ' or c == '\t'`. -/
def isblank (c : Int) : Bool :=
  decide (c = 32 ∨ c = 9)

/-- char_type.h tolower: `isupper(c) ? (c + '0' - 16) : c`. -/
def tolower (c : Int) : Int :=
  if isupper c then c + 48 - 16 else c

/-- char_type.h toupper: `islower(c) ? (c - '0' + 16) : c`. -/
def toupper (c : Int) : Int :=
  if islower c then c - 48 + 16 else c

/-- char_type.h isvtab: `c == '\v'` (0x0B). -/
def isvtab (c : Int) : Bool :=
  decide (c = 11)

/-- char_type.h ishtab: `c == '\t'` (0x09). -/
def ishtab (c : Int) : Bool :=
  decide (c = 9)

/-- char_type.h istab: `isvtab(c) or ishtab(c)`. -/
def istab (c : Int) : Bool :=
  isvtab c || ishtab c

/-- char_type.h isaspace: `c == ' '` (0x20) exactly. -/
def isaspace (c : Int) : Bool :=
  decide (c = 32)

/-- char_type.h isbel: `c == '\a'` (0x07). -/
def isbel (c : Int) : Bool :=
  decide (c = 7)

/-- char_type.h isbackspace: `c == '\b'` (0x08). -/
def isbackspace (c : Int) : Bool :=
  decide (c = 8)

/-- char_type.h isformfeed: `c == '\f'` (0x0C). -/
def isformfeed (c : Int) : Bool :=
  decide (c = 12)

/-- char_type.h isnewline: `c == '\n'` (0x0A). -/
def isnewline (c : Int) : Bool :=
  decide (c = 10)

/-- char_type.h isreturn: `c == '\r'` (0x0D). -/
def isreturn (c : Int) : Bool :=
  decide (c = 13)

/-- char_type.h isxlower: `islower(c) or 'a'..'f'`. -/
def isxlower (c : Int) : Bool :=
  islower c || decide (97 ≤ c ∧ c ≤ 102)

/-- char_type.h isxupper: `isupper(c) or 'A'..'F'`. -/
def isxupper (c : Int) : Bool :=
  isupper c || decide (65 ≤ c ∧ c ≤ 70)

end char_type

/-- xc.cc ignore_if (lines 80-91): keep exactly the items for which the
predicate is false, in order. -/
def ignore_if : List Char → (Char → Bool) → List Char
  | [], _ => []
  | x :: xs, pred => if pred x then ignore_if xs pred else x :: ignore_if xs pred

/-- The effect of `source.erase(std::find(source.begin(), source.end(), c))`
when `c` occurs in `source`: remove the leftmost occurrence of `c`. -/
def removeFirst : List Char → Char → List Char
  | [], _ => []
  | x :: xs, c => if x = c then xs else x :: removeFirst xs c

/-- The inner while loop of xc.cc look_for (lines 64-67): while the counter is
nonzero and `c` occurs in the buffer, erase the leftmost occurrence and
decrement the counter. -/
def look_pass : List Char → Char → Nat → List Char
  | s, _, 0 => s
  | s, c, n + 1 => if c ∈ s then look_pass (removeFirst s c) c n else s

/-- `std::string::erase(first, last)` on positions: remove the range
[a, b) of indices. -/
def eraseRange (l : List Char) (a b : Nat) : List Char :=
  l.take a ++ l.drop b

/-- The for loop of xc.cc look_for (lines 62-73).  The C++ range-for iterates
the matches string with iterators fixed at loop entry; since the
per-iteration erase of the empty range [begin, begin) removes nothing and
invalidates nothing, the iteration sequence is the entry value of the matches
string (third argument) while the string object itself is threaded through
`eraseRange` (second argument).  The counter is reset to its entry value
(`times_old`) for every character. -/
def look_loop : List Char → List Char → List Char → Nat → List Char × List Char
  | s, ms, [], _ => (s, ms)
  | s, ms, e :: rest, n => look_loop (look_pass s e n) (eraseRange ms 0 0) rest n

/-- Result of a call to look_for: whether fatal_errorx was reached, and the
final states of the two by-reference string arguments. -/
structure LookResult where
  errored : Bool
  buffer : List Char
  matchesStr : List Char
  deriving Repr, DecidableEq

/-- xc.cc look_for (lines 52-76): reject a negative count before touching the
buffer (fatal_errorx exits, so on that path both strings keep their entry
values), otherwise run the removal loop.  `times` is an int64_t; after the
sign check it is a nonnegative count, modelled by `Int.toNat`. -/
def look_for (source matchesStr : List Char) (times : Int) : LookResult :=
  if times < 0 then
    { errored := true, buffer := source, matchesStr := matchesStr }
  else
    let r := look_loop source matchesStr matchesStr times.toNat
    { errored := false, buffer := r.1, matchesStr := r.2 }

/-- Does `pat` occur at the head of `s`? (prefix test used by substring
search). -/
def startsWithPat : List Char → List Char → Bool
  | [], _ => true
  | _ :: _, [] => false
  | p :: ps, x :: xs => p = x && startsWithPat ps xs

/-- xc.cc contains_this (lines 108-116): `source.find(key) != npos`,
i.e. substring containment. -/
def hasSub : List Char → List Char → Bool
  | [], pat => pat.isEmpty
  | x :: xs, pat => startsWithPat pat (x :: xs) || hasSub xs pat

/-- The ordered token table of xc.cc match_args (lines 121-212): each entry is
the token searched for in the pattern and the predicate handed to
ignore_and_append when the token is found.  Note the `[:space:]` entry calls
char_type::isaspace (line 179) and the `[:vtab:]` entry calls
char_type::ishtab (line 191), exactly as the source does. -/
def tokenTable : List (List Char × (Char → Bool)) :=
  [ (String.toList "[:alnum:]", fun c => char_type.isalnum (charToInt c)),
    (String.toList "[:alpha:]", fun c => char_type.isalpha (charToInt c)),
    (String.toList "[:blank:]", fun c => char_type.isblank (charToInt c)),
    (String.toList "[:cntrl:]", fun c => char_type.iscntrl (charToInt c)),
    (String.toList "[:digit:]", fun c => char_type.isdigit (charToInt c)),
    (String.toList "[:graph:]", fun c => char_type.isgraph (charToInt c)),
    (String.toList "[:lower:]", fun c => char_type.islower (charToInt c)),
    (String.toList "[:print:]", fun c => char_type.isprint (charToInt c)),
    (String.toList "[:punct:]", fun c => char_type.ispunct (charToInt c)),
    (String.toList "[:space:]", fun c => char_type.isaspace (charToInt c)),
    (String.toList "[:htab:]", fun c => char_type.ishtab (charToInt c)),
    (String.toList "[:vtab:]", fun c => char_type.ishtab (charToInt c)),
    (String.toList "[:newline:]", fun c => char_type.isnewline (charToInt c)),
    (String.toList "[:upper:]", fun c => char_type.isupper (charToInt c)),
    (String.toList "[:xdigit:]", fun c => char_type.isxdigit (charToInt c)) ]

/-- One `if (contains_this(args, tok)) ignore_and_append(buf, pred);` step of
match_args.  ignore_and_append (xc.cc lines 97-103) replaces the buffer with
the result of ignore_if. -/
def applyTok (args : List Char) (b : List Char) (tp : List Char × (Char → Bool)) : List Char :=
  if hasSub args tp.1 then ignore_if b tp.2 else b

/-- xc.cc match_args (lines 121-212): the fifteen token tests applied in
source order to the buffer. -/
def match_args (args buf : List Char) : List Char :=
  tokenTable.foldl (applyTok args) buf

/-- Index of the first occurrence of `pat` in `s`
(`std::string::find`, `none` for npos). -/
def findSub : List Char → List Char → Option Nat
  | [], pat => if startsWithPat pat [] then some 0 else none
  | x :: xs, pat =>
    if startsWithPat pat (x :: xs) then some 0
    else (findSub xs pat).map (fun i => i + 1)

/-- Index of the last occurrence of `pat` in `s`
(`std::string::rfind`, `none` for npos). -/
def rfindSub : List Char → List Char → Option Nat
  | [], pat => if startsWithPat pat [] then some 0 else none
  | x :: xs, pat =>
    match rfindSub xs pat with
    | some i => some (i + 1)
    | none => if startsWithPat pat (x :: xs) then some 0 else none

/-- `std::string::replace(pos, cnt, "")`: erase min(cnt, size-pos) characters
starting at pos. -/
def eraseCount (l : List Char) (pos cnt : Nat) : List Char :=
  l.take pos ++ l.drop (pos + cnt)

/-- xc.cc main, lines 277-279: if the pattern still contains a class-token
delimiter, replace, starting at the first occurrence of the two-character
delimiter, a character count of `rfind(colon-bracket) + 2`, by the empty
string.  When no closing delimiter exists, `rfind` yields npos = 2^64 - 1 and
the size_t count wraps to (npos + 2) mod 2^64 = 1. -/
def residue (p : List Char) : List Char :=
  match findSub p (String.toList "[:") with
  | none => p
  | some i =>
    match rfindSub p (String.toList ":]") with
    | some j => eraseCount p i (j + 2)
    | none => eraseCount p i 1

/-- Does `pat` occur in `s` at index `i`? -/
abbrev occursAt (s pat : List Char) (i : Nat) : Prop :=
  startsWithPat pat (s.drop i) = true

/-! ### Supporting lemmas about the removal passes -/

theorem ignore_if_eq_filter (s : List Char) (p : Char → Bool) :
    ignore_if s p = s.filter (fun c => !p c) := by
  induction s with
  | nil => rfl
  | cons x xs ih =>
    by_cases h : p x <;> simp [ignore_if, h, ih, List.filter_cons]

theorem ignore_if_sublist (s : List Char) (p : Char → Bool) :
    List.Sublist (ignore_if s p) s := by
  rw [ignore_if_eq_filter]
  exact List.filter_sublist s

theorem mem_of_mem_ignore_if {a : Char} {s : List Char} {p : Char → Bool}
    (h : a ∈ ignore_if s p) : a ∈ s :=
  (ignore_if_sublist s p).mem h

theorem not_mem_ignore_if {a : Char} (s : List Char) {p : Char → Bool}
    (h : p a = true) : a ∉ ignore_if s p := by
  rw [ignore_if_eq_filter]
  intro hmem
  have := (List.mem_filter.mp hmem).2
  simp [h] at this

theorem removeFirst_sublist (c : Char) : ∀ s : List Char,
    List.Sublist (removeFirst s c) s := by
  intro s
  induction s with
  | nil => exact List.Sublist.refl _
  | cons x xs ih =>
    by_cases h : x = c
    · rw [removeFirst, if_pos h, h]
      exact (List.Sublist.refl xs).cons c
    · rw [removeFirst, if_neg h]
      exact ih.cons₂ x

theorem count_removeFirst (c : Char) : ∀ s : List Char, c ∈ s →
    (removeFirst s c).count c + 1 = s.count c := by
  intro s
  induction s with
  | nil => intro h; cases h
  | cons x xs ih =>
    intro hmem
    by_cases h : x = c
    · simp [removeFirst, h, List.count_cons]
    · have hx : x ∈ (x :: xs) := List.mem_cons_self x xs
      have hmem' : c ∈ xs := by
        rcases List.mem_cons.mp hmem with h1 | h1
        · exact absurd h1.symm h
        · exact h1
      have hbe : (x == c) = false := by simp [h]
      simp [removeFirst, h, List.count_cons, hbe, ← ih hmem']

theorem look_pass_sublist (c : Char) : ∀ (n : Nat) (s : List Char),
    List.Sublist (look_pass s c n) s := by
  intro n
  induction n with
  | zero => intro s; exact List.Sublist.refl _
  | succ n ih =>
    intro s
    by_cases h : c ∈ s
    · simpa [look_pass, h] using (ih (removeFirst s c)).trans (removeFirst_sublist c s)
    · simp [look_pass, h]

theorem look_pass_eq_iterate (c : Char) : ∀ (n : Nat) (s : List Char),
    look_pass s c n = (fun t => removeFirst t c)^[min (s.count c) n] s := by
  intro n
  induction n with
  | zero => intro s; simp [look_pass]
  | succ n ih =>
    intro s
    by_cases h : c ∈ s
    · have hk : s.count c = (removeFirst s c).count c + 1 := (count_removeFirst c s h).symm
      rw [look_pass, if_pos h, ih (removeFirst s c), hk, Nat.succ_min_succ,
        Function.iterate_succ_apply]
    · have hz : s.count c = 0 := List.count_eq_zero.mpr h
      simp [look_pass, h, hz]

theorem count_iterate_removeFirst (c : Char) : ∀ (m : Nat) (s : List Char),
    m ≤ s.count c →
    ((fun t => removeFirst t c)^[m] s).count c = s.count c - m := by
  intro m
  induction m with
  | zero => intro s _; simp
  | succ m ih =>
    intro s hm
    have hmem : c ∈ s := List.count_pos_iff.mp (Nat.lt_of_lt_of_le (Nat.succ_pos m) hm)
    have hk := count_removeFirst c s hmem
    rw [Function.iterate_succ_apply, ih (removeFirst s c) (by omega)]
    omega

theorem look_pass_count (s : List Char) (c : Char) (n : Nat) :
    (look_pass s c n).count c = s.count c - min (s.count c) n := by
  rw [look_pass_eq_iterate]
  exact count_iterate_removeFirst c (min (s.count c) n) s (Nat.min_le_left _ _)

theorem eraseRange_zero_zero (l : List Char) : eraseRange l 0 0 = l := rfl

theorem look_loop_fst (n : Nat) : ∀ (l s ms : List Char),
    (look_loop s ms l n).1 = l.foldl (fun t e => look_pass t e n) s := by
  intro l
  induction l with
  | nil => intro s ms; rfl
  | cons e rest ih => intro s ms; simp [look_loop, ih, List.foldl_cons]

theorem look_loop_snd (n : Nat) : ∀ (l s ms : List Char),
    (look_loop s ms l n).2 = ms := by
  intro l
  induction l with
  | nil => intro s ms; rfl
  | cons e rest ih => intro s ms; simp [look_loop, eraseRange_zero_zero, ih]

theorem look_loop_sublist (n : Nat) : ∀ (l s ms : List Char),
    List.Sublist (look_loop s ms l n).1 s := by
  intro l
  induction l with
  | nil => intro s ms; exact List.Sublist.refl _
  | cons e rest ih =>
    intro s ms
    exact (ih (look_pass s e n) (eraseRange ms 0 0)).trans (look_pass_sublist e n s)

theorem occursAt_cons_succ (x : Char) (xs pat : List Char) (k : Nat) :
    occursAt (x :: xs) pat (k + 1) ↔ occursAt xs pat k := by
  simp [occursAt, List.drop_succ_cons]

theorem occursAt_lt_length (c : Char) (ps : List Char) :
    ∀ (s : List Char) (k : Nat), occursAt s (c :: ps) k → k < s.length := by
  intro s
  induction s with
  | nil =>
    intro k h
    simp [occursAt, startsWithPat, List.drop_nil] at h
  | cons x xs ih =>
    intro k h
    cases k with
    | zero => simp
    | succ m =>
      have hm := ih m ((occursAt_cons_succ x xs (c :: ps) m).mp h)
      simpa using Nat.succ_lt_succ hm

theorem findSub_eq_none_iff : ∀ (s pat : List Char),
    findSub s pat = none ↔ ∀ k, ¬ occursAt s pat k := by
  intro s
  induction s with
  | nil =>
    intro pat
    by_cases h : startsWithPat pat [] = true
    · simp only [findSub, if_pos h]
      constructor
      · intro hc; cases hc
      · intro hall
        exact absurd (show occursAt [] pat 0 from h) (hall 0)
    · simp only [findSub, if_neg h]
      constructor
      · intro _ k
        simpa [occursAt, List.drop_nil] using h
      · intro _; trivial
  | cons x xs ih =>
    intro pat
    by_cases h : startsWithPat pat (x :: xs) = true
    · simp only [findSub, if_pos h]
      constructor
      · intro hc; cases hc
      · intro hall
        exact absurd (show occursAt (x :: xs) pat 0 from h) (hall 0)
    · simp only [findSub, if_neg h, Option.map_eq_none']
      rw [ih pat]
      constructor
      · intro hall k
        cases k with
        | zero => simpa [occursAt] using h
        | succ m =>
          rw [occursAt_cons_succ]
          exact hall m
      · intro hall k
        have := hall (k + 1)
        rwa [occursAt_cons_succ] at this

theorem findSub_eq_some_iff : ∀ (s pat : List Char) (i : Nat),
    findSub s pat = some i ↔
      (occursAt s pat i ∧ ∀ k, k < i → ¬ occursAt s pat k) := by
  intro s
  induction s with
  | nil =>
    intro pat i
    by_cases h : startsWithPat pat [] = true
    · simp only [findSub, if_pos h, Option.some.injEq]
      constructor
      · rintro rfl
        exact ⟨h, by omega⟩
      · rintro ⟨-, hmin⟩
        by_contra hne
        have h0 : (0 : Nat) < i := Nat.pos_of_ne_zero (fun he => hne he.symm)
        exact hmin 0 h0 (show occursAt [] pat 0 from h)
    · simp only [findSub, if_neg h]
      constructor
      · intro hc; cases hc
      · rintro ⟨hocc, -⟩
        exact absurd (by simpa [occursAt, List.drop_nil] using hocc) h
  | cons x xs ih =>
    intro pat i
    by_cases h : startsWithPat pat (x :: xs) = true
    · simp only [findSub, if_pos h, Option.some.injEq]
      constructor
      · rintro rfl
        exact ⟨h, by omega⟩
      · rintro ⟨-, hmin⟩
        by_contra hne
        have h0 : (0 : Nat) < i := Nat.pos_of_ne_zero (fun he => hne he.symm)
        exact hmin 0 h0 (show occursAt (x :: xs) pat 0 from h)
    · simp only [findSub, if_neg h]
      cases i with
      | zero =>
        constructor
        · intro hc
          rcases Option.map_eq_some'.mp hc with ⟨m, -, hm⟩
          cases hm
        · rintro ⟨hocc, -⟩
          exact absurd (show startsWithPat pat (x :: xs) = true from hocc) h
      | succ m =>
        constructor
        · intro hc
          rcases Option.map_eq_some'.mp hc with ⟨m', hm', he⟩
          have hmm : m' = m := by omega
          subst hmm
          rcases (ih pat m').mp hm' with ⟨hocc, hmin⟩
          refine ⟨(occursAt_cons_succ x xs pat m').mpr hocc, ?_⟩
          intro k hk
          cases k with
          | zero =>
            intro hocc0
            exact h (show startsWithPat pat (x :: xs) = true from hocc0)
          | succ k' =>
            rw [occursAt_cons_succ]
            exact hmin k' (by omega)
        · rintro ⟨hocc, hmin⟩
          have hocc' : occursAt xs pat m := (occursAt_cons_succ x xs pat m).mp hocc
          have hmin' : ∀ k, k < m → ¬ occursAt xs pat k := by
            intro k hk
            rw [← occursAt_cons_succ x]
            exact hmin (k + 1) (by omega)
          rw [(ih pat m).mpr ⟨hocc', hmin'⟩]
          rfl

theorem rfindSub_some_occurs : ∀ (s pat : List Char) (j : Nat),
    rfindSub s pat = some j → occursAt s pat j := by
  intro s
  induction s with
  | nil =>
    intro pat j h
    by_cases hs : startsWithPat pat [] = true
    · simp only [rfindSub, if_pos hs, Option.some.injEq] at h
      subst h
      exact hs
    · simp only [rfindSub, if_neg hs] at h
      cases h
  | cons x xs ih =>
    intro pat j h
    cases hr : rfindSub xs pat with
    | some i =>
      rw [rfindSub, hr] at h
      have hj : j = i + 1 := by
        have := Option.some.inj h
        omega
      subst hj
      exact (occursAt_cons_succ x xs pat i).mpr (ih pat i hr)
    | none =>
      rw [rfindSub, hr] at h
      by_cases hs : startsWithPat pat (x :: xs) = true
      · rw [if_pos hs] at h
        have hj : j = 0 := (Option.some.inj h).symm
        subst hj
        exact hs
      · rw [if_neg hs] at h
        cases h

theorem rfindSub_eq_none_iff : ∀ (s pat : List Char),
    rfindSub s pat = none ↔ ∀ k, ¬ occursAt s pat k := by
  intro s
  induction s with
  | nil =>
    intro pat
    by_cases h : startsWithPat pat [] = true
    · simp only [rfindSub, if_pos h]
      constructor
      · intro hc; cases hc
      · intro hall
        exact absurd (show occursAt [] pat 0 from h) (hall 0)
    · simp only [rfindSub, if_neg h]
      constructor
      · intro _ k
        simpa [occursAt, List.drop_nil] using h
      · intro _; trivial
  | cons x xs ih =>
    intro pat
    cases hr : rfindSub xs pat with
    | some i =>
      simp only [rfindSub, hr]
      constructor
      · intro hc; cases hc
      · intro hall
        have hocc : occursAt xs pat i := rfindSub_some_occurs xs pat i hr
        exact absurd ((occursAt_cons_succ x xs pat i).mpr hocc) (hall (i + 1))
    | none =>
      simp only [rfindSub, hr]
      by_cases hs : startsWithPat pat (x :: xs) = true
      · rw [if_pos hs]
        constructor
        · intro hc; cases hc
        · intro hall
          exact absurd (show occursAt (x :: xs) pat 0 from hs) (hall 0)
      · rw [if_neg hs]
        constructor
        · intro _ k
          cases k with
          | zero =>
            intro hocc0
            exact hs (show startsWithPat pat (x :: xs) = true from hocc0)
          | succ m =>
            rw [occursAt_cons_succ]
            exact (ih pat).mp hr m
        · intro _; rfl

theorem rfindSub_eq_some_iff (c : Char) (ps : List Char) :
    ∀ (s : List Char) (j : Nat),
    rfindSub s (c :: ps) = some j ↔
      (occursAt s (c :: ps) j ∧ ∀ k, occursAt s (c :: ps) k → k ≤ j) := by
  intro s
  induction s with
  | nil =>
    intro j
    have hs : ¬ startsWithPat (c :: ps) [] = true := by
      simp [startsWithPat]
    simp only [rfindSub, if_neg hs]
    constructor
    · intro hc; cases hc
    · rintro ⟨hocc, -⟩
      exact absurd (by simpa [occursAt, List.drop_nil] using hocc) hs
  | cons x xs ih =>
    intro j
    cases hr : rfindSub xs (c :: ps) with
    | some i =>
      simp only [rfindSub, hr, Option.some.injEq]
      have hocci : occursAt xs (c :: ps) i := rfindSub_some_occurs xs (c :: ps) i hr
      constructor
      · rintro rfl
        refine ⟨(occursAt_cons_succ x xs (c :: ps) i).mpr hocci, ?_⟩
        intro k hk
        cases k with
        | zero => omega
        | succ m =>
          have := ((ih i).mp hr).2 m ((occursAt_cons_succ x xs (c :: ps) m).mp hk)
          omega
      · rintro ⟨hocc, hmax⟩
        have h1 : i + 1 ≤ j :=
          hmax (i + 1) ((occursAt_cons_succ x xs (c :: ps) i).mpr hocci)
        cases j with
        | zero => omega
        | succ m =>
          have hoccm : occursAt xs (c :: ps) m :=
            (occursAt_cons_succ x xs (c :: ps) m).mp hocc
          have h2 : m ≤ i := ((ih i).mp hr).2 m hoccm
          omega
    | none =>
      have hnone : ∀ k, ¬ occursAt xs (c :: ps) k :=
        (rfindSub_eq_none_iff xs (c :: ps)).mp hr
      simp only [rfindSub, hr]
      by_cases hs : startsWithPat (c :: ps) (x :: xs) = true
      · rw [if_pos hs]
        simp only [Option.some.injEq]
        constructor
        · rintro rfl
          refine ⟨hs, ?_⟩
          intro k hk
          cases k with
          | zero => omega
          | succ m =>
            exact absurd ((occursAt_cons_succ x xs (c :: ps) m).mp hk) (hnone m)
        · rintro ⟨hocc, hmax⟩
          cases j with
          | zero => rfl
          | succ m =>
            exact absurd ((occursAt_cons_succ x xs (c :: ps) m).mp hocc) (hnone m)
      · rw [if_neg hs]
        constructor
        · intro hc; cases hc
        · rintro ⟨hocc, -⟩
          cases j with
          | zero => exact absurd (show startsWithPat (c :: ps) (x :: xs) = true from hocc) hs
          | succ m =>
            exact absurd ((occursAt_cons_succ x xs (c :: ps) m).mp hocc) (hnone m)

theorem mem_of_mem_applyTok {args b : List Char} {tp : List Char × (Char → Bool)}
    {a : Char} (h : a ∈ applyTok args b tp) : a ∈ b := by
  unfold applyTok at h
  by_cases hc : hasSub args tp.1 = true
  · rw [if_pos hc] at h
    exact mem_of_mem_ignore_if h
  · rw [if_neg hc] at h
    exact h

theorem mem_of_mem_foldl_applyTok (args : List Char) (a : Char) :
    ∀ (table : List (List Char × (Char → Bool))) (b : List Char),
      a ∈ List.foldl (applyTok args) b table → a ∈ b := by
  intro table
  induction table with
  | nil => intro b h; exact h
  | cons t ts ih =>
    intro b h
    exact mem_of_mem_applyTok (ih (applyTok args b t) h)

theorem not_mem_foldl_applyTok (args : List Char) (a : Char) :
    ∀ (table : List (List Char × (Char → Bool))) (b : List Char),
      (∃ tp ∈ table, hasSub args tp.1 = true ∧ tp.2 a = true) →
      a ∉ List.foldl (applyTok args) b table := by
  intro table
  induction table with
  | nil =>
    rintro b ⟨tp, htp, -, -⟩
    cases htp
  | cons t ts ih =>
    rintro b ⟨tp, htp, h1, h2⟩ hin
    rw [List.foldl_cons] at hin
    rcases List.mem_cons.mp htp with rfl | hmem
    · have h3 : a ∈ applyTok args b tp :=
        mem_of_mem_foldl_applyTok args a ts (applyTok args b tp) hin
      rw [applyTok, if_pos h1] at h3
      exact not_mem_ignore_if b h2 h3
    · exact ih (applyTok args b t) ⟨tp, hmem, h1, h2⟩ hin


/-! ### Claim theorems -/

/-- C8: class removal is idempotent: applying ignore_if twice with the same
predicate yields the same buffer as applying it once. -/
theorem class_removal_idem (source : List Char) (pred : Char → Bool) :
    ignore_if (ignore_if source pred) pred = ignore_if source pred := by
  induction source with
  | nil => rfl
  | cons x xs ih =>
    by_cases h : pred x
    · simp [ignore_if, h, ih]
    · simp [ignore_if, h, ih]

/-- C9: both removal passes only delete bytes and never reorder them: the
output of ignore_if is a subsequence of its input, and the buffer produced by
look_for is a subsequence of the input buffer. -/
theorem removal_preserves_order (source matchesStr : List Char) (N : Int)
    (pred : Char → Bool) :
    List.Sublist (ignore_if source pred) source ∧
    List.Sublist ((look_for source matchesStr N).buffer) source := by
  refine ⟨ignore_if_sublist source pred, ?_⟩
  unfold look_for
  by_cases h : N < 0
  · simp [h]
  · simp only [h, if_false]
    exact look_loop_sublist N.toNat matchesStr source matchesStr

/-- C10: look_for returns with its mutable matches argument equal to its
value at entry: each per-iteration erase call removes the empty range
[begin, begin), so the matches string is never actually modified. -/
theorem look_for_frames_matchesStr (source matchesStr : List Char) (N : Int) :
    (look_for source matchesStr N).matchesStr = matchesStr := by
  unfold look_for
  by_cases h : N < 0
  · simp [h]
  · simp [h, look_loop_snd]

/-- C5: for a negative limit, look_for reports a usage error and performs no
mutation: at the moment the error is reported the buffer (and the matches
string) still hold their entry values, and the negative limit is not silently
clamped to zero. -/
theorem negative_limit_rejected (source matchesStr : List Char) (N : Int)
    (h : N < 0) :
    (look_for source matchesStr N).errored = true ∧
    (look_for source matchesStr N).buffer = source ∧
    (look_for source matchesStr N).matchesStr = matchesStr := by
  simp [look_for, h]

/-- Witness for C5 at limit -1. -/
theorem negative_limit_rejected_w :
    (look_for (String.toList "ab") ['b'] (-1)).errored = true ∧
    (look_for (String.toList "ab") ['b'] (-1)).buffer = String.toList "ab" ∧
    (look_for (String.toList "ab") ['b'] (-1)).matchesStr = ['b'] :=
  negative_limit_rejected (String.toList "ab") ['b'] (-1) (by decide)

/-- C4: with a nonnegative limit, look_for succeeds and processes the residue
character by character; each character pass removes exactly
min(occurrences, limit) occurrences, leaving count - min(count, limit), and
every deletion removes the leftmost remaining occurrence (the pass is an
iterate of leftmost-occurrence removal), the limit being reset independently
for every residue character. -/
theorem literal_removal_bounded (source matchesStr s : List Char) (c : Char)
    (N : Int) (hN : 0 ≤ N) :
    (look_for source matchesStr N).errored = false ∧
    (look_for source matchesStr N).buffer =
      matchesStr.foldl (fun t e => look_pass t e N.toNat) source ∧
    (look_pass s c N.toNat).count c = s.count c - min (s.count c) N.toNat ∧
    look_pass s c N.toNat =
      (fun t => removeFirst t c)^[min (s.count c) N.toNat] s := by
  have h : ¬ N < 0 := not_lt.mpr hN
  refine ⟨?_, ?_, look_pass_count s c N.toNat, look_pass_eq_iterate c N.toNat s⟩
  · simp [look_for, h]
  · simp [look_for, h, look_loop_fst]

set_option maxRecDepth 40000 in
set_option synthInstance.maxSize 4000 in
/-- C7: over every byte 0..255 (passed to the classifiers through the
signed-char-to-int conversion), each classifier predicate is true exactly on
its documented ASCII set; in particular print on [0x20, 0x5F] (so 0x60..0x7E
are not print), cntrl on [0x00, 0x1F] together with 0x7F, and graph on
[0x21, 0x7E], boundary bytes included. -/
theorem classifier_ranges (b : Fin 256) :
    (char_type.isprint (byteToInt b.val) = true ↔ 32 ≤ b.val ∧ b.val ≤ 95) ∧
    (char_type.iscntrl (byteToInt b.val) = true ↔ b.val ≤ 31 ∨ b.val = 127) ∧
    (char_type.isgraph (byteToInt b.val) = true ↔ 33 ≤ b.val ∧ b.val ≤ 126) ∧
    (char_type.isalnum (byteToInt b.val) = true ↔
      (48 ≤ b.val ∧ b.val ≤ 57) ∨ (65 ≤ b.val ∧ b.val ≤ 90) ∨
      (97 ≤ b.val ∧ b.val ≤ 122)) ∧
    (char_type.isalpha (byteToInt b.val) = true ↔
      (65 ≤ b.val ∧ b.val ≤ 90) ∨ (97 ≤ b.val ∧ b.val ≤ 122)) ∧
    (char_type.isdigit (byteToInt b.val) = true ↔ 48 ≤ b.val ∧ b.val ≤ 57) ∧
    (char_type.isupper (byteToInt b.val) = true ↔ 65 ≤ b.val ∧ b.val ≤ 90) ∧
    (char_type.islower (byteToInt b.val) = true ↔ 97 ≤ b.val ∧ b.val ≤ 122) ∧
    (char_type.ispunct (byteToInt b.val) = true ↔
      (33 ≤ b.val ∧ b.val ≤ 126) ∧
      ¬((48 ≤ b.val ∧ b.val ≤ 57) ∨ (65 ≤ b.val ∧ b.val ≤ 90) ∨
        (97 ≤ b.val ∧ b.val ≤ 122))) ∧
    (char_type.isspace (byteToInt b.val) = true ↔
      (9 ≤ b.val ∧ b.val ≤ 13) ∨ b.val = 32) ∧
    (char_type.isblank (byteToInt b.val) = true ↔ b.val = 32 ∨ b.val = 9) ∧
    (char_type.isxdigit (byteToInt b.val) = true ↔
      (48 ≤ b.val ∧ b.val ≤ 57) ∨ (97 ≤ b.val ∧ b.val ≤ 102) ∨
      (65 ≤ b.val ∧ b.val ≤ 70)) ∧
    (char_type.isascii (byteToInt b.val) = true ↔ b.val ≤ 127) ∧
    (char_type.ishtab (byteToInt b.val) = true ↔ b.val = 9) ∧
    (char_type.isvtab (byteToInt b.val) = true ↔ b.val = 11) ∧
    (char_type.isnewline (byteToInt b.val) = true ↔ b.val = 10) ∧
    (char_type.isreturn (byteToInt b.val) = true ↔ b.val = 13) ∧
    (char_type.isaspace (byteToInt b.val) = true ↔ b.val = 32) ∧
    (char_type.isbel (byteToInt b.val) = true ↔ b.val = 7) ∧
    (char_type.isbackspace (byteToInt b.val) = true ↔ b.val = 8) ∧
    (char_type.isformfeed (byteToInt b.val) = true ↔ b.val = 12) ∧
    (char_type.istab (byteToInt b.val) = true ↔ b.val = 9 ∨ b.val = 11) ∧
    (char_type.isxlower (byteToInt b.val) = true ↔
      (97 ≤ b.val ∧ b.val ≤ 122) ∨ (97 ≤ b.val ∧ b.val ≤ 102)) ∧
    (char_type.isxupper (byteToInt b.val) = true ↔
      (65 ≤ b.val ∧ b.val ≤ 90) ∨ (65 ≤ b.val ∧ b.val ≤ 70)) := by
  revert b; decide

/-- C6 counterexample: the claim asserts the case shift ('0' - 16) differs
from the standard ASCII case-folding shift 'a' - 'A'; in fact
'0' - 16 = 48 - 16 = 32 = 97 - 65 = 'a' - 'A', and tolower maps 'A' (65) to
exactly 'a' (97), standard case folding. -/
theorem case_shift_counterexample :
    char_type.tolower 65 = 97 ∧ char_type.toupper 97 = 65 ∧
    ((48 : Int) - 16 = 97 - 65) := by decide

/-- C6 (amended): tolower adds, on uppercase inputs, the offset
'0' - 16 = 32, which coincides with the standard ASCII case-folding shift
'a' - 'A' = 97 - 65; toupper subtracts the same shift on lowercase inputs;
inputs outside the respective class are returned unchanged. -/
theorem case_shift_standard (c : Int) :
    (char_type.isupper c = true → char_type.tolower c = c + (97 - 65)) ∧
    (char_type.islower c = true → char_type.toupper c = c - (97 - 65)) ∧
    (char_type.isupper c = false → char_type.tolower c = c) ∧
    (char_type.islower c = false → char_type.toupper c = c) ∧
    ((48 : Int) - 16 = 97 - 65) := by
  refine ⟨?_, ?_, ?_, ?_, by norm_num⟩ <;> intro h <;>
    simp [char_type.tolower, char_type.toupper, h] <;> ring

/-- Witness for C6 at the bytes 'A' (65) and 'a' (97). -/
theorem case_shift_standard_w :
    char_type.tolower 65 = 65 + (97 - 65) ∧
    char_type.toupper 97 = 97 - (97 - 65) ∧
    char_type.tolower 97 = 97 ∧
    char_type.toupper 65 = 65 :=
  ⟨(case_shift_standard 65).1 (by decide),
   (case_shift_standard 97).2.1 (by decide),
   (case_shift_standard 97).2.2.1 (by decide),
   (case_shift_standard 65).2.2.2.1 (by decide)⟩

/-- C1: the claim says the "[:vtab:]" token selects the vtab classifier and
so deletes every 0x0B byte; in the code (xc.cc line 191) the vtab branch
calls char_type::ishtab, so on buffer [0x0B, 0x09] with pattern "[:vtab:]"
the horizontal tab 0x09 is deleted while the vertical tab 0x0B survives,
even though char_type::isvtab (the predicate the claim names) is true on
0x0B. -/
theorem vtab_token_uses_htab_predicate :
    match_args (String.toList "[:vtab:]") ['\x0B', '\t'] = ['\x0B'] ∧
    char_type.isvtab (charToInt '\x0B') = true := by decide

/-- C2 counterexample: pattern "[:space:]" on buffer [0x09]; the claim says
every byte in [0x09, 0x0D] is deleted, but the space branch (xc.cc line 179)
calls char_type::isaspace, which keeps the 0x09 byte. -/
theorem space_token_counterexample :
    match_args (String.toList "[:space:]") ['\t'] = ['\t'] := by decide

/-- C2 (amended): the "[:space:]" token selects the isaspace predicate: the
branch deletes exactly the bytes equal to 0x20, and whenever the pattern
contains "[:space:]" no 0x20 byte survives match_args. -/
theorem space_token_selects_aspace (args buf s : List Char)
    (h : hasSub args (String.toList "[:space:]") = true) :
    (' ' ∉ match_args args buf) ∧
    ignore_if s (fun c => char_type.isaspace (charToInt c)) =
      s.filter (fun c => decide (¬ charToInt c = 32)) := by
  constructor
  · unfold match_args
    apply not_mem_foldl_applyTok
    refine ⟨(String.toList "[:space:]",
            fun c => char_type.isaspace (charToInt c)), ?_, h, by decide⟩
    unfold tokenTable
    exact .tail _ (.tail _ (.tail _ (.tail _ (.tail _ (.tail _ (.tail _
      (.tail _ (.tail _ (.head _)))))))))
  · rw [ignore_if_eq_filter]
    congr 1
    funext c
    simp [char_type.isaspace]

/-- Witness for C2 at pattern "[:space:]" and buffer [0x20, 0x61]. -/
theorem space_token_selects_aspace_w :
    (' ' ∉ match_args (String.toList "[:space:]") [' ', 'a']) ∧
    ignore_if [' ', 'a'] (fun c => char_type.isaspace (charToInt c)) =
      [' ', 'a'].filter (fun c => decide (¬ charToInt c = 32)) :=
  space_token_selects_aspace (String.toList "[:space:]") [' ', 'a'] [' ', 'a']
    (by decide)

/-- C3 counterexample: for pattern "a[:x:]bc" the first "[:" is at index 1
and the last ":]" is at index 4; the claim says the removed span runs from
index 1 to index 4 + 2 = 6, which would leave "abc", but the code passes
4 + 2 = 6 as the LENGTH of the replaced span, so the residue is "ac". -/
theorem residue_span_counterexample :
    residue (String.toList "a[:x:]bc") = ['a', 'c'] ∧
    findSub (String.toList "a[:x:]bc") (String.toList "[:") = some 1 ∧
    rfindSub (String.toList "a[:x:]bc") (String.toList ":]") = some 4 ∧
    (String.toList "a[:x:]bc").take 1 ++ (String.toList "a[:x:]bc").drop (4 + 2)
      = ['a', 'b', 'c'] ∧
    (['a', 'c'] : List Char) ≠ ['a', 'b', 'c'] := by decide

/-- C3 (amended): when the pattern contains "[:" (first occurrence at index
i) and ":]" (last occurrence at index j), the literal residue is the pattern
with the span starting at index i and of LENGTH j + 2 removed (clamped at the
end of the string), i.e. take i followed by drop (i + j + 2); a pattern with
no "[:" is returned unchanged. -/
theorem residue_span_characterisation (p : List Char) :
    (∀ i j, occursAt p (String.toList "[:") i →
      (∀ k, k < i → ¬ occursAt p (String.toList "[:") k) →
      occursAt p (String.toList ":]") j →
      (∀ k, k < p.length → occursAt p (String.toList ":]") k → k ≤ j) →
      residue p = p.take i ++ p.drop (i + (j + 2))) ∧
    ((∀ k, k < p.length → ¬ occursAt p (String.toList "[:") k) →
      residue p = p) := by
  constructor
  · intro i j hi hmin hj hmax
    have hfind : findSub p (String.toList "[:") = some i :=
      (findSub_eq_some_iff p (String.toList "[:") i).mpr ⟨hi, hmin⟩
    have hmax' : ∀ k, occursAt p (String.toList ":]") k → k ≤ j := by
      intro k hk
      exact hmax k (occursAt_lt_length ':' [']'] p k hk) hk
    have hrfind : rfindSub p (String.toList ":]") = some j :=
      (rfindSub_eq_some_iff ':' [']'] p j).mpr ⟨hj, hmax'⟩
    simp only [residue, hfind, hrfind]
    rfl
  · intro h
    have h' : ∀ k, ¬ occursAt p (String.toList "[:") k := by
      intro k hk
      exact h k (occursAt_lt_length '[' [':'] p k hk) hk
    have hfind : findSub p (String.toList "[:") = none :=
      (findSub_eq_none_iff p (String.toList "[:")).mpr h'
    simp only [residue, hfind]

/-- Witness for C3 at patterns "a[:x:]bc" (i = 1, j = 4) and "abc". -/
theorem residue_span_characterisation_w :
    residue (String.toList "a[:x:]bc") =
      (String.toList "a[:x:]bc").take 1 ++
        (String.toList "a[:x:]bc").drop (1 + (4 + 2)) ∧
    residue (String.toList "abc") = String.toList "abc" :=
  ⟨(residue_span_characterisation (String.toList "a[:x:]bc")).1 1 4
      (by decide) (by decide) (by decide) (by decide),
   (residue_span_characterisation (String.toList "abc")).2 (by decide)⟩

/-- Witness for C4: buffer "aabbbcc", residue "b", limit 2. -/
theorem literal_removal_bounded_w :
    (0 : Int) ≤ 2 ∧
    ((look_for (String.toList "aabbbcc") ['b'] 2).errored = false ∧
     (look_for (String.toList "aabbbcc") ['b'] 2).buffer =
       List.foldl (fun t e => look_pass t e (2 : Int).toNat)
         (String.toList "aabbbcc") ['b'] ∧
     (look_pass (String.toList "aabbbcc") 'b' (2 : Int).toNat).count 'b' =
       (String.toList "aabbbcc").count 'b' -
         min ((String.toList "aabbbcc").count 'b') (2 : Int).toNat ∧
     look_pass (String.toList "aabbbcc") 'b' (2 : Int).toNat =
       (fun t => removeFirst t 'b')^[min ((String.toList "aabbbcc").count 'b')
         (2 : Int).toNat] (String.toList "aabbbcc")) :=
  ⟨by decide,
   literal_removal_bounded (String.toList "aabbbcc") ['b']
     (String.toList "aabbbcc") 'b' 2 (by decide)⟩
